import Mathlib

/-!
Shallow embedding of the DSP core of src/main.rs (wav-files-echo):
the delay/echo/reverb engine `apply_delay_effect` and the chorus engine
`apply_chorus_effect`, modelled over ℝ with explicit state passing.
Rust f32 arithmetic is idealised as real arithmetic; the truncating
float remainder `%`, `fract` and the `as usize` casts are modelled
explicitly.
-/

namespace WavEcho

/-- Truncation toward zero, as used by Rust f32 casts, `%` and `fract`. -/
noncomputable def rustTrunc (x : ℝ) : ℤ := if 0 ≤ x then ⌊x⌋ else ⌈x⌉

/-- Rust f32 remainder `x % y`: truncating remainder, sign of the dividend. -/
noncomputable def rustRem (x y : ℝ) : ℝ := x - y * (rustTrunc (x / y) : ℝ)

/-- Rust f32 `fract`: `x - trunc x`. -/
noncomputable def rustFract (x : ℝ) : ℝ := x - (rustTrunc x : ℝ)

/-! ### Delay engine (`apply_delay_effect`, src/main.rs lines 143-181) -/

/-- Rust line 151: `let delay_samples = (delay_ms * sr / 1000.0).max(1.0) as usize;`
(the `as usize` cast truncates toward zero; the value is ≥ 1). -/
noncomputable def delaySamples (delayMs sr : ℝ) : ℕ := ⌊max (delayMs * sr / 1000) 1⌋₊

/-- Rust line 153: `let feedback = 10f32.powf(-3.0 * delay_s / decay_time_s).clamp(0.0, 1.0);`
with `delay_s = delay_ms / 1000.0` (line 152). -/
noncomputable def delayFeedback (delayMs decayTimeS : ℝ) : ℝ :=
  min (max ((10 : ℝ) ^ (-3 * (delayMs / 1000) / decayTimeS)) 0) 1

/-- Rust line 160: `let lp_coeff = 0.5f32;`. -/
noncomputable def lpCoeff : ℝ := 1 / 2

/-- Mutable loop state of `apply_delay_effect`: the circular delay line,
the write cursor and the previous lowpass output. -/
structure DelaySt where
  line : ℕ → ℝ
  wpos : ℕ
  prevLp : ℝ

/-- Rust lines 163-164: `(write_pos as isize - delay_samples as isize).rem_euclid(delay_samples as isize) as usize`. -/
noncomputable def delayReadPos (d wpos : ℕ) : ℕ := (((wpos : ℤ) - (d : ℤ)) % (d : ℤ)).toNat

/-- One iteration of the loop body of `apply_delay_effect` (lines 162-178):
read the delayed sample, mix the output, optionally lowpass the feedback
signal, write back into the delay line and advance the cursor. -/
noncomputable def delayStep (wet fb : ℝ) (lowpass : Bool) (d : ℕ) (s : DelaySt) (inp : ℝ) :
    ℝ × DelaySt :=
  let delayed := s.line (delayReadPos d s.wpos)
  let out := (1 - wet) * inp + wet * delayed
  let lpOut := lpCoeff * delayed + (1 - lpCoeff) * s.prevLp
  let fv := if lowpass then lpOut else delayed
  let newLp := if lowpass then lpOut else s.prevLp
  (out, ⟨Function.update s.line s.wpos (inp + fb * fv), (s.wpos + 1) % d, newLp⟩)

/-- Initial state: all-zero delay line, `write_pos = 0`, `prev_lp = 0.0`. -/
noncomputable def delayInit : DelaySt := ⟨fun _ => 0, 0, 0⟩

/-- The loop of `apply_delay_effect` as a fold producing the output list. -/
noncomputable def delayRun (wet fb : ℝ) (lowpass : Bool) (d : ℕ) :
    List ℝ → DelaySt → List ℝ
  | [], _ => []
  | inp :: rest, s =>
      (delayStep wet fb lowpass d s inp).1 ::
        delayRun wet fb lowpass d rest (delayStep wet fb lowpass d s inp).2

/-- Rust `apply_delay_effect` (src/main.rs lines 143-181). -/
noncomputable def apply_delay_effect (input : List ℝ) (sr wet delayMs decayTimeS : ℝ)
    (lowpass : Bool) : List ℝ :=
  delayRun wet (delayFeedback delayMs decayTimeS) lowpass (delaySamples delayMs sr) input
    delayInit

/-- State of the delay loop before frame `i`, when run on `input` from the
initial state. -/
noncomputable def delayStateAt (wet fb : ℝ) (lowpass : Bool) (d : ℕ) (input : List ℝ) :
    ℕ → DelaySt
  | 0 => delayInit
  | i + 1 =>
      (delayStep wet fb lowpass d (delayStateAt wet fb lowpass d input i)
        (input.getD i 0)).2

/-! ### Chorus engine (`apply_chorus_effect`, src/main.rs lines 184-235) -/

/-- Rust line 193: `let base_delay_samples = (delay_ms * sr / 1000.0).max(1.0);`. -/
noncomputable def chorusBaseDelay (delayMs sr : ℝ) : ℝ := max (delayMs * sr / 1000) 1

/-- Rust line 194: `let depth_samples = (depth_ms * sr / 1000.0).max(1.0);`. -/
noncomputable def chorusDepthSamples (depthMs sr : ℝ) : ℝ := max (depthMs * sr / 1000) 1

/-- Rust line 196: `let feedback = 10f32.powf(-3.0 * delay_s / decay_time_s).clamp(0.0, 0.3);`. -/
noncomputable def chorusFeedback (delayMs decayTimeS : ℝ) : ℝ :=
  min (max ((10 : ℝ) ^ (-3 * (delayMs / 1000) / decayTimeS)) 0) (3 / 10)

/-- Rust line 198: `let buffer_size = (base_delay_samples + depth_samples * 2.0) as usize;`. -/
noncomputable def chorusBufferSize (delayMs depthMs sr : ℝ) : ℕ :=
  ⌊chorusBaseDelay delayMs sr + chorusDepthSamples depthMs sr * 2⌋₊

/-- Rust line 204: `let phase_inc = 2.0 * PI * rate_hz / sr;`. -/
noncomputable def chorusPhaseInc (rateHz sr : ℝ) : ℝ := 2 * Real.pi * rateHz / sr

/-- Rust line 207: `let modulation = (phase.sin() + 1.0) * 0.5;`. -/
noncomputable def chorusModFactor (phase : ℝ) : ℝ := (Real.sin phase + 1) * (1 / 2)

/-- Rust line 208: `let curr_delay = base_delay_samples + modulation * depth_samples;`. -/
noncomputable def chorusCurrDelay (base depth phase : ℝ) : ℝ :=
  base + chorusModFactor phase * depth

/-- Rust line 209: `let read_pos_float = (write_pos as f32 - curr_delay) % (buffer_size as f32);`
(truncating f32 remainder). -/
noncomputable def chorusReadPosFloat (bufSize wpos : ℕ) (currDelay : ℝ) : ℝ :=
  rustRem ((wpos : ℝ) - currDelay) (bufSize : ℝ)

/-- Mutable loop state of `apply_chorus_effect`: the circular delay line,
the write cursor and the oscillator phase. -/
structure ChorusSt where
  line : ℕ → ℝ
  wpos : ℕ
  phase : ℝ

/-- One iteration of the loop body of `apply_chorus_effect` (lines 206-231). -/
noncomputable def chorusStep (wet fb base depth phaseInc : ℝ) (bufSize : ℕ) (s : ChorusSt)
    (inp : ℝ) : ℝ × ChorusSt :=
  let rpf := chorusReadPosFloat bufSize s.wpos (chorusCurrDelay base depth s.phase)
  let readPos := ⌊max rpf 0⌋₊ % bufSize
  let frac := rustFract rpf
  let delayed :=
    if frac = 0 then s.line readPos
    else s.line readPos * (1 - frac) + s.line ((readPos + 1) % bufSize) * frac
  let out := (1 - wet) * inp + wet * delayed
  let p := s.phase + phaseInc
  (out, ⟨Function.update s.line s.wpos (inp + fb * delayed), (s.wpos + 1) % bufSize,
    if 2 * Real.pi ≤ p then p - 2 * Real.pi else p⟩)

/-- Initial chorus state: zero delay line, `write_pos = 0`, `phase = 0.0`. -/
noncomputable def chorusInit : ChorusSt := ⟨fun _ => 0, 0, 0⟩

/-- The loop of `apply_chorus_effect` as a fold producing the output list. -/
noncomputable def chorusRun (wet fb base depth phaseInc : ℝ) (bufSize : ℕ) :
    List ℝ → ChorusSt → List ℝ
  | [], _ => []
  | inp :: rest, s =>
      (chorusStep wet fb base depth phaseInc bufSize s inp).1 ::
        chorusRun wet fb base depth phaseInc bufSize rest
          (chorusStep wet fb base depth phaseInc bufSize s inp).2

/-- Rust `apply_chorus_effect` (src/main.rs lines 184-235). -/
noncomputable def apply_chorus_effect (input : List ℝ)
    (sr wet delayMs decayTimeS rateHz depthMs : ℝ) : List ℝ :=
  chorusRun wet (chorusFeedback delayMs decayTimeS) (chorusBaseDelay delayMs sr)
    (chorusDepthSamples depthMs sr) (chorusPhaseInc rateHz sr)
    (chorusBufferSize delayMs depthMs sr) input chorusInit

/-- State of the chorus loop before frame `i`, run on `input` from the
initial state. -/
noncomputable def chorusStateAt (wet fb base depth phaseInc : ℝ) (bufSize : ℕ)
    (input : List ℝ) : ℕ → ChorusSt
  | 0 => chorusInit
  | i + 1 =>
      (chorusStep wet fb base depth phaseInc bufSize
        (chorusStateAt wet fb base depth phaseInc bufSize input i) (input.getD i 0)).2

/-! ### Basic run lemmas: length, dry mix, silence -/

theorem delayRun_length (wet fb : ℝ) (lowpass : Bool) (d : ℕ) :
    ∀ (xs : List ℝ) (s : DelaySt), (delayRun wet fb lowpass d xs s).length = xs.length
  | [], _ => rfl
  | _ :: t, s => by
      simp [delayRun, delayRun_length wet fb lowpass d t]

theorem chorusRun_length (wet fb base depth phaseInc : ℝ) (bufSize : ℕ) :
    ∀ (xs : List ℝ) (s : ChorusSt),
      (chorusRun wet fb base depth phaseInc bufSize xs s).length = xs.length
  | [], _ => rfl
  | _ :: t, s => by
      simp [chorusRun, chorusRun_length wet fb base depth phaseInc bufSize t]

theorem delayRun_wet_zero (fb : ℝ) (lowpass : Bool) (d : ℕ) :
    ∀ (xs : List ℝ) (s : DelaySt), delayRun 0 fb lowpass d xs s = xs
  | [], _ => rfl
  | x :: t, s => by
      simp [delayRun, delayStep, delayRun_wet_zero fb lowpass d t]

theorem chorusRun_wet_zero (fb base depth phaseInc : ℝ) (bufSize : ℕ) :
    ∀ (xs : List ℝ) (s : ChorusSt), chorusRun 0 fb base depth phaseInc bufSize xs s = xs
  | [], _ => rfl
  | x :: t, s => by
      simp [chorusRun, chorusStep, chorusRun_wet_zero fb base depth phaseInc bufSize t]

theorem delayStep_silent (wet fb : ℝ) (lowpass : Bool) (d : ℕ) (s : DelaySt)
    (hl : ∀ p, s.line p = 0) (hp : s.prevLp = 0) :
    (delayStep wet fb lowpass d s 0).1 = 0 ∧
      (∀ p, (delayStep wet fb lowpass d s 0).2.line p = 0) ∧
      (delayStep wet fb lowpass d s 0).2.prevLp = 0 := by
  refine ⟨?_, fun p => ?_, ?_⟩ <;>
    simp [delayStep, hl, hp, Function.update_apply]

theorem chorusStep_silent (wet fb base depth phaseInc : ℝ) (bufSize : ℕ) (s : ChorusSt)
    (hl : ∀ p, s.line p = 0) :
    (chorusStep wet fb base depth phaseInc bufSize s 0).1 = 0 ∧
      ∀ p, (chorusStep wet fb base depth phaseInc bufSize s 0).2.line p = 0 := by
  refine ⟨?_, fun p => ?_⟩ <;>
    simp [chorusStep, hl, Function.update_apply]

theorem delayRun_silent (wet fb : ℝ) (lowpass : Bool) (d : ℕ) :
    ∀ (n : ℕ) (s : DelaySt), (∀ p, s.line p = 0) → s.prevLp = 0 →
      delayRun wet fb lowpass d (List.replicate n 0) s = List.replicate n 0
  | 0, _, _, _ => rfl
  | n + 1, s, hl, hp => by
      obtain ⟨h1, h2, h3⟩ := delayStep_silent wet fb lowpass d s hl hp
      simp only [List.replicate_succ, delayRun, h1]
      rw [delayRun_silent wet fb lowpass d n _ h2 h3]

theorem chorusRun_silent (wet fb base depth phaseInc : ℝ) (bufSize : ℕ) :
    ∀ (n : ℕ) (s : ChorusSt), (∀ p, s.line p = 0) →
      chorusRun wet fb base depth phaseInc bufSize (List.replicate n 0) s =
        List.replicate n 0
  | 0, _, _ => rfl
  | n + 1, s, hl => by
      obtain ⟨h1, h2⟩ := chorusStep_silent wet fb base depth phaseInc bufSize s hl
      simp only [List.replicate_succ, chorusRun, h1]
      rw [chorusRun_silent wet fb base depth phaseInc bufSize n _ h2]

/-! ### Claims C3, C4, C5, C7 -/

/-- C3: for every input buffer and all parameter values, both
`apply_delay_effect` and `apply_chorus_effect` return an output of the same
length as the input. -/
theorem C3_length_preservation (input : List ℝ)
    (sr wet delayMs decayTimeS rateHz depthMs : ℝ) (lowpass : Bool) :
    (apply_delay_effect input sr wet delayMs decayTimeS lowpass).length = input.length ∧
      (apply_chorus_effect input sr wet delayMs decayTimeS rateHz depthMs).length =
        input.length :=
  ⟨delayRun_length _ _ _ _ input _, chorusRun_length _ _ _ _ _ _ input _⟩

/-- C4: with `wet = 0`, both engines return the input unchanged
(`output[i] = input[i]` for every index). -/
theorem C4_dry_mix_identity (input : List ℝ)
    (sr delayMs decayTimeS rateHz depthMs : ℝ) (lowpass : Bool) :
    apply_delay_effect input sr 0 delayMs decayTimeS lowpass = input ∧
      apply_chorus_effect input sr 0 delayMs decayTimeS rateHz depthMs = input :=
  ⟨delayRun_wet_zero _ _ _ input _, chorusRun_wet_zero _ _ _ _ _ input _⟩

/-- C5: an all-zero input produces an all-zero output from both engines, for
any parameter combination. -/
theorem C5_silence_invariance (n : ℕ)
    (sr wet delayMs decayTimeS rateHz depthMs : ℝ) (lowpass : Bool) :
    apply_delay_effect (List.replicate n 0) sr wet delayMs decayTimeS lowpass =
        List.replicate n 0 ∧
      apply_chorus_effect (List.replicate n 0) sr wet delayMs decayTimeS rateHz depthMs =
        List.replicate n 0 :=
  ⟨delayRun_silent _ _ _ _ n delayInit (fun _ => rfl) rfl,
    chorusRun_silent _ _ _ _ _ _ n chorusInit (fun _ => rfl)⟩

/-- C7: for positive `decayTimeS`, `delayMs` and `sampleRate`, the RT60-derived
feedback gain lies in `[0, 1]` for the delay engine and in `[0, 0.3]` for the
chorus engine. -/
theorem C7_feedback_gain_range (delayMs decayTimeS sr : ℝ)
    (h1 : 0 < decayTimeS) (h2 : 0 < delayMs) (h3 : 0 < sr) :
    (0 ≤ delayFeedback delayMs decayTimeS ∧ delayFeedback delayMs decayTimeS ≤ 1) ∧
      (0 ≤ chorusFeedback delayMs decayTimeS ∧
        chorusFeedback delayMs decayTimeS ≤ 3 / 10) := by
  refine ⟨⟨le_min (le_max_right _ _) (by norm_num), min_le_right _ _⟩,
    ⟨le_min (le_max_right _ _) (by norm_num), min_le_right _ _⟩⟩

/-- Witness for C7 at `delayMs = 250`, `decayTimeS = 1`, `sampleRate = 16000`. -/
theorem C7_feedback_gain_range_witness :
    (0 < (1 : ℝ)) ∧ (0 < (250 : ℝ)) ∧ (0 < (16000 : ℝ)) ∧
      ((0 ≤ delayFeedback 250 1 ∧ delayFeedback 250 1 ≤ 1) ∧
        (0 ≤ chorusFeedback 250 1 ∧ chorusFeedback 250 1 ≤ 3 / 10)) :=
  ⟨by norm_num, by norm_num, by norm_num,
    C7_feedback_gain_range 250 1 16000 (by norm_num) (by norm_num) (by norm_num)⟩

/-! ### Chorus oscillator phase (C9) and read position (C1) -/

/-- The chorus loop state, with the engine parameters instantiated exactly as
`apply_chorus_effect` computes them from its arguments. -/
noncomputable def chorusProgStateAt (input : List ℝ)
    (sr wet delayMs decayTimeS rateHz depthMs : ℝ) : ℕ → ChorusSt :=
  chorusStateAt wet (chorusFeedback delayMs decayTimeS) (chorusBaseDelay delayMs sr)
    (chorusDepthSamples depthMs sr) (chorusPhaseInc rateHz sr)
    (chorusBufferSize delayMs depthMs sr) input

theorem chorusStep_phase (wet fb base depth phaseInc : ℝ) (bufSize : ℕ) (s : ChorusSt)
    (inp : ℝ) :
    (chorusStep wet fb base depth phaseInc bufSize s inp).2.phase =
      if 2 * Real.pi ≤ s.phase + phaseInc then s.phase + phaseInc - 2 * Real.pi
      else s.phase + phaseInc := rfl

theorem chorusModFactor_mem (x : ℝ) : 0 ≤ chorusModFactor x ∧ chorusModFactor x ≤ 1 := by
  have h1 := Real.neg_one_le_sin x
  have h2 := Real.sin_le_one x
  unfold chorusModFactor
  constructor <;> nlinarith

theorem chorusStateAt_phase_mem (wet fb base depth phaseInc : ℝ) (bufSize : ℕ)
    (input : List ℝ) (hinc0 : 0 ≤ phaseInc) (hinc2 : phaseInc ≤ 2 * Real.pi) :
    ∀ i, 0 ≤ (chorusStateAt wet fb base depth phaseInc bufSize input i).phase ∧
      (chorusStateAt wet fb base depth phaseInc bufSize input i).phase < 2 * Real.pi
  | 0 => ⟨le_refl 0, Real.two_pi_pos⟩
  | i + 1 => by
      obtain ⟨ih0, ih2⟩ :=
        chorusStateAt_phase_mem wet fb base depth phaseInc bufSize input hinc0 hinc2 i
      simp only [chorusStateAt, chorusStep_phase]
      by_cases h : 2 * Real.pi ≤
          (chorusStateAt wet fb base depth phaseInc bufSize input i).phase + phaseInc
      · rw [if_pos h]
        constructor <;> linarith
      · rw [if_neg h]
        constructor <;> linarith

/-- C9 (amended): the oscillator phase starts at 0 and steps by
`2π * rateHz / sampleRate` with a single-subtraction wrap; provided
`0 < sampleRate` and `0 ≤ rateHz ≤ sampleRate` the phase stays in `[0, 2π)`
at every frame, and the modulation factor `(sin(phase) + 1) / 2` lies in
`[0, 1]`. -/
theorem C9_phase_invariant_amended (input : List ℝ)
    (sr wet delayMs decayTimeS rateHz depthMs : ℝ)
    (h1 : 0 < sr) (h2 : 0 ≤ rateHz) (h3 : rateHz ≤ sr) (i : ℕ) :
    (chorusProgStateAt input sr wet delayMs decayTimeS rateHz depthMs 0).phase = 0 ∧
      (chorusProgStateAt input sr wet delayMs decayTimeS rateHz depthMs (i + 1)).phase =
        (if 2 * Real.pi ≤
            (chorusProgStateAt input sr wet delayMs decayTimeS rateHz depthMs i).phase +
              chorusPhaseInc rateHz sr then
          (chorusProgStateAt input sr wet delayMs decayTimeS rateHz depthMs i).phase +
            chorusPhaseInc rateHz sr - 2 * Real.pi
        else
          (chorusProgStateAt input sr wet delayMs decayTimeS rateHz depthMs i).phase +
            chorusPhaseInc rateHz sr) ∧
      0 ≤ (chorusProgStateAt input sr wet delayMs decayTimeS rateHz depthMs i).phase ∧
      (chorusProgStateAt input sr wet delayMs decayTimeS rateHz depthMs i).phase <
        2 * Real.pi ∧
      0 ≤ chorusModFactor
          ((chorusProgStateAt input sr wet delayMs decayTimeS rateHz depthMs i).phase) ∧
      chorusModFactor
          ((chorusProgStateAt input sr wet delayMs decayTimeS rateHz depthMs i).phase) ≤ 1 := by
  have hinc0 : 0 ≤ chorusPhaseInc rateHz sr := by
    unfold chorusPhaseInc
    apply div_nonneg _ h1.le
    nlinarith [Real.pi_pos]
  have hinc2 : chorusPhaseInc rateHz sr ≤ 2 * Real.pi := by
    unfold chorusPhaseInc
    rw [div_le_iff₀ h1]
    nlinarith [Real.pi_pos]
  obtain ⟨hm0, hm1⟩ := chorusModFactor_mem
    ((chorusProgStateAt input sr wet delayMs decayTimeS rateHz depthMs i).phase)
  obtain ⟨hl, hr⟩ := chorusStateAt_phase_mem wet (chorusFeedback delayMs decayTimeS)
    (chorusBaseDelay delayMs sr) (chorusDepthSamples depthMs sr) (chorusPhaseInc rateHz sr)
    (chorusBufferSize delayMs depthMs sr) input hinc0 hinc2 i
  exact ⟨rfl, rfl, hl, hr, hm0, hm1⟩

/-- Witness for the amended C9 at a concrete run (impulse-free single sample,
`sampleRate = 16000`, `rateHz = 0.8`, frame 1). -/
theorem C9_phase_invariant_amended_witness :
    (0 < (16000 : ℝ)) ∧ (0 ≤ (4 / 5 : ℝ)) ∧ ((4 / 5 : ℝ) ≤ 16000) ∧
      ((chorusProgStateAt [0] 16000 (1 / 2) 250 1 (4 / 5) 20 0).phase = 0 ∧
        (chorusProgStateAt [0] 16000 (1 / 2) 250 1 (4 / 5) 20 (1 + 1)).phase =
          (if 2 * Real.pi ≤
              (chorusProgStateAt [0] 16000 (1 / 2) 250 1 (4 / 5) 20 1).phase +
                chorusPhaseInc (4 / 5) 16000 then
            (chorusProgStateAt [0] 16000 (1 / 2) 250 1 (4 / 5) 20 1).phase +
              chorusPhaseInc (4 / 5) 16000 - 2 * Real.pi
          else
            (chorusProgStateAt [0] 16000 (1 / 2) 250 1 (4 / 5) 20 1).phase +
              chorusPhaseInc (4 / 5) 16000) ∧
        0 ≤ (chorusProgStateAt [0] 16000 (1 / 2) 250 1 (4 / 5) 20 1).phase ∧
        (chorusProgStateAt [0] 16000 (1 / 2) 250 1 (4 / 5) 20 1).phase < 2 * Real.pi ∧
        0 ≤ chorusModFactor
            ((chorusProgStateAt [0] 16000 (1 / 2) 250 1 (4 / 5) 20 1).phase) ∧
        chorusModFactor
            ((chorusProgStateAt [0] 16000 (1 / 2) 250 1 (4 / 5) 20 1).phase) ≤ 1) :=
  ⟨by norm_num, by norm_num, by norm_num,
    C9_phase_invariant_amended [0] 16000 (1 / 2) 250 1 (4 / 5) 20 (by norm_num)
      (by norm_num) (by norm_num) 1⟩

/-- C9 counterexample: with `rateHz = -1` and `sampleRate = 1` the phase after
frame 1 is `-2π`, outside `[0, 2π)`, so the unrestricted claim is false. -/
theorem C9_phase_counterexample :
    (chorusProgStateAt [0] 1 (1 / 2) 1 1 (-1) 1 1).phase < 0 := by
  have hpi := Real.pi_pos
  have hinc : chorusPhaseInc (-1) 1 = -(2 * Real.pi) := by
    unfold chorusPhaseInc
    ring
  have h0 : (chorusProgStateAt [0] 1 (1 / 2) 1 1 (-1) 1 1).phase =
      if 2 * Real.pi ≤ (0 : ℝ) + chorusPhaseInc (-1) 1 then
        (0 : ℝ) + chorusPhaseInc (-1) 1 - 2 * Real.pi
      else (0 : ℝ) + chorusPhaseInc (-1) 1 := rfl
  rw [h0, hinc, if_neg (by linarith)]
  linarith

/-! ### C6: delay-line length rounding -/

/-- Modelled from the spec sentence of C6 for comparison: delay-line length
as `round(delayMs * sampleRate / 1000)`, floored to a minimum of 1. -/
noncomputable def delaySamplesSpec (delayMs sr : ℝ) : ℕ :=
  max 1 (round (delayMs * sr / 1000)).toNat

/-- C6 counterexample: at `delayMs = 1500`, `sampleRate = 1` the code truncates
`1.5` to a delay line of 1 sample, while `round` would give 2. -/
theorem C6_counterexample :
    delaySamples 1500 1 = 1 ∧ delaySamplesSpec 1500 1 = 2 ∧
      delaySamples 1500 1 ≠ delaySamplesSpec 1500 1 := by
  have hval : (1500 : ℝ) * 1 / 1000 = 3 / 2 := by norm_num
  have hfloor : ⌊(3 / 2 : ℝ)⌋₊ = 1 := by
    rw [Nat.floor_eq_iff (by norm_num)]
    norm_num
  have h1 : delaySamples 1500 1 = 1 := by
    unfold delaySamples
    rw [hval, max_eq_left (by norm_num : (1 : ℝ) ≤ 3 / 2), hfloor]
  have hround : round ((3 / 2 : ℝ)) = 2 := by
    rw [round_eq, show (3 / 2 : ℝ) + 1 / 2 = ((2 : ℤ) : ℝ) by norm_num, Int.floor_intCast]
  have h2 : delaySamplesSpec 1500 1 = 2 := by
    unfold delaySamplesSpec
    rw [hval, hround]
    rfl
  exact ⟨h1, h2, by rw [h1, h2]; decide⟩

/-- C6 (amended): for `delayMs > 0` and `sampleRate > 0` the delay-line length
equals `floor(delayMs * sampleRate / 1000)` (truncation, not rounding),
floored to a minimum of 1. -/
theorem C6_delay_line_length_amended (delayMs sr : ℝ) (h1 : 0 < delayMs) (h2 : 0 < sr) :
    delaySamples delayMs sr = max 1 ⌊delayMs * sr / 1000⌋₊ := by
  unfold delaySamples
  rcases le_or_lt 1 (delayMs * sr / 1000) with h | h
  · rw [max_eq_left h, max_eq_right (Nat.le_floor (by exact_mod_cast h))]
  · rw [max_eq_right h.le, Nat.floor_one,
      Nat.floor_eq_zero.mpr h, max_eq_left (by decide)]

/-- Witness for the amended C6 at `delayMs = 250`, `sampleRate = 16000`. -/
theorem C6_delay_line_length_amended_witness :
    (0 < (250 : ℝ)) ∧ (0 < (16000 : ℝ)) ∧
      delaySamples 250 16000 = max 1 ⌊(250 : ℝ) * 16000 / 1000⌋₊ :=
  ⟨by norm_num, by norm_num, C6_delay_line_length_amended 250 16000 (by norm_num) (by norm_num)⟩

/-! ### C1: the chorus fractional read position on early frames -/

/-- C1 (code evaluated at the failing input): at frame 0 of a chorus run with
`sampleRate = 16000`, `delayMs = 10`, `depthMs = 5` the code computes the
fractional read position with the truncating float remainder, yielding `-200`
(negative, outside `[0, bufferLength)`), and then clamps it to buffer index 0,
whereas the Euclidean modulo of the spec would wrap `0 - 200` to `120`. -/
theorem C1_read_position_clamped_not_wrapped :
    chorusReadPosFloat (chorusBufferSize 10 5 16000)
        ((chorusProgStateAt [1] 16000 (1 / 2) 10 1 (4 / 5) 5 0).wpos)
        (chorusCurrDelay (chorusBaseDelay 10 16000) (chorusDepthSamples 5 16000)
          ((chorusProgStateAt [1] 16000 (1 / 2) 10 1 (4 / 5) 5 0).phase)) = -200 ∧
      (-200 : ℝ) < 0 ∧
      ⌊max (-200 : ℝ) 0⌋₊ % chorusBufferSize 10 5 16000 = 0 ∧
      ((0 : ℤ) - 200) % (320 : ℤ) = 120 := by
  have hbase : chorusBaseDelay 10 16000 = 160 := by
    unfold chorusBaseDelay
    rw [show (10 : ℝ) * 16000 / 1000 = 160 by norm_num,
      max_eq_left (by norm_num : (1 : ℝ) ≤ 160)]
  have hdepth : chorusDepthSamples 5 16000 = 80 := by
    unfold chorusDepthSamples
    rw [show (5 : ℝ) * 16000 / 1000 = 80 by norm_num,
      max_eq_left (by norm_num : (1 : ℝ) ≤ 80)]
  have hbuf : chorusBufferSize 10 5 16000 = 320 := by
    unfold chorusBufferSize
    rw [hbase, hdepth, show (160 : ℝ) + 80 * 2 = ((320 : ℕ) : ℝ) by norm_num,
      Nat.floor_natCast]
  have hwpos : (chorusProgStateAt [1] 16000 (1 / 2) 10 1 (4 / 5) 5 0).wpos = 0 := rfl
  have hphase : (chorusProgStateAt [1] 16000 (1 / 2) 10 1 (4 / 5) 5 0).phase = 0 := rfl
  have hcurr : chorusCurrDelay (chorusBaseDelay 10 16000) (chorusDepthSamples 5 16000)
      ((chorusProgStateAt [1] 16000 (1 / 2) 10 1 (4 / 5) 5 0).phase) = 200 := by
    rw [hbase, hdepth, hphase]
    unfold chorusCurrDelay chorusModFactor
    rw [Real.sin_zero]
    norm_num
  have htrunc : rustTrunc ((0 - 200 : ℝ) / 320) = 0 := by
    unfold rustTrunc
    rw [if_neg (by norm_num)]
    rw [show ((0 - 200 : ℝ) / 320) = -(5 / 8) by norm_num]
    rw [Int.ceil_eq_zero_iff.mpr (by constructor <;> norm_num)]
  have hrpf : chorusReadPosFloat 320 0 200 = -200 := by
    unfold chorusReadPosFloat rustRem
    rw [show ((0 : ℕ) : ℝ) - 200 = (0 - 200 : ℝ) by norm_num]
    rw [show ((320 : ℕ) : ℝ) = (320 : ℝ) by norm_num, htrunc]
    norm_num
  refine ⟨?_, by norm_num, ?_, by decide⟩
  · rw [hbuf, hwpos, hcurr, hrpf]
  · rw [hbuf, max_eq_right (by norm_num : (-200 : ℝ) ≤ 0), Nat.floor_zero]

/-! ### Delay-line contents across frames (C8, C10, C2) -/

/-- The delayed sample read at frame `i` of the delay loop. -/
noncomputable def delayDelayed (wet fb : ℝ) (lowpass : Bool) (d : ℕ) (input : List ℝ)
    (i : ℕ) : ℝ :=
  (delayStateAt wet fb lowpass d input i).line
    (delayReadPos d (delayStateAt wet fb lowpass d input i).wpos)

/-- The value written into the delay line at frame `i` (at the frame's write
position). -/
noncomputable def delayWritten (wet fb : ℝ) (lowpass : Bool) (d : ℕ) (input : List ℝ)
    (i : ℕ) : ℝ :=
  (delayStateAt wet fb lowpass d input (i + 1)).line
    ((delayStateAt wet fb lowpass d input i).wpos)

/-- The feedback signal of frame `i`: the delayed sample, optionally passed
through the one-pole lowpass with the previous lowpass output. -/
noncomputable def delayFbSig (wet fb : ℝ) (lowpass : Bool) (d : ℕ) (input : List ℝ)
    (i : ℕ) : ℝ :=
  if lowpass then
    lpCoeff * delayDelayed wet fb lowpass d input i +
      (1 - lpCoeff) * (delayStateAt wet fb lowpass d input i).prevLp
  else delayDelayed wet fb lowpass d input i

theorem delayStep_line (wet fb : ℝ) (lowpass : Bool) (d : ℕ) (s : DelaySt) (inp : ℝ) :
    (delayStep wet fb lowpass d s inp).2.line =
      Function.update s.line s.wpos
        (inp + fb * (if lowpass then
            lpCoeff * s.line (delayReadPos d s.wpos) + (1 - lpCoeff) * s.prevLp
          else s.line (delayReadPos d s.wpos))) := rfl

theorem delayStep_wpos (wet fb : ℝ) (lowpass : Bool) (d : ℕ) (s : DelaySt) (inp : ℝ) :
    (delayStep wet fb lowpass d s inp).2.wpos = (s.wpos + 1) % d := rfl

theorem delayStep_prevLp (wet fb : ℝ) (lowpass : Bool) (d : ℕ) (s : DelaySt) (inp : ℝ) :
    (delayStep wet fb lowpass d s inp).2.prevLp =
      if lowpass then
        lpCoeff * s.line (delayReadPos d s.wpos) + (1 - lpCoeff) * s.prevLp
      else s.prevLp := rfl

theorem delayStateAt_wpos (wet fb : ℝ) (lowpass : Bool) (d : ℕ) (input : List ℝ) :
    ∀ i, (delayStateAt wet fb lowpass d input i).wpos = i % d
  | 0 => (Nat.zero_mod d).symm
  | i + 1 => by
      show (delayStep wet fb lowpass d (delayStateAt wet fb lowpass d input i)
        (input.getD i 0)).2.wpos = (i + 1) % d
      rw [delayStep_wpos, delayStateAt_wpos wet fb lowpass d input i, Nat.mod_add_mod]

/-- Pointwise description of how one frame changes the delay line. -/
theorem delayStateAt_line_succ_apply (wet fb : ℝ) (lowpass : Bool) (d : ℕ)
    (input : List ℝ) (i p : ℕ) :
    (delayStateAt wet fb lowpass d input (i + 1)).line p =
      if p = (delayStateAt wet fb lowpass d input i).wpos then
        input.getD i 0 + fb * delayFbSig wet fb lowpass d input i
      else (delayStateAt wet fb lowpass d input i).line p := by
  show (delayStep wet fb lowpass d (delayStateAt wet fb lowpass d input i)
    (input.getD i 0)).2.line p = _
  rw [delayStep_line, Function.update_apply]
  rfl

theorem delayWritten_eq (wet fb : ℝ) (lowpass : Bool) (d : ℕ) (input : List ℝ) (i : ℕ) :
    delayWritten wet fb lowpass d input i =
      input.getD i 0 + fb * delayFbSig wet fb lowpass d input i := by
  unfold delayWritten
  rw [delayStateAt_line_succ_apply, if_pos rfl]

/-- A position no frame so far has written to still holds the initial zero. -/
theorem delayStateAt_line_eq_zero (wet fb : ℝ) (lowpass : Bool) (d : ℕ) (input : List ℝ) :
    ∀ i p, (∀ j, j < i → j % d ≠ p) → (delayStateAt wet fb lowpass d input i).line p = 0
  | 0, _, _ => rfl
  | i + 1, p, h => by
      rw [delayStateAt_line_succ_apply, delayStateAt_wpos,
        if_neg (fun hc => h i (Nat.lt_succ_self i) hc.symm)]
      exact delayStateAt_line_eq_zero wet fb lowpass d input i p
        (fun j hj => h j (Nat.lt_succ_of_lt hj))

/-- Adding fewer than `d` to the frame index moves the write cursor off any
fixed position: residues `i+m` and `i` differ for `1 ≤ m < d`. -/
theorem mod_add_ne (i m d : ℕ) (h1 : 1 ≤ m) (h2 : m < d) : (i + m) % d ≠ i % d := by
  have hd : 0 < d := Nat.lt_of_le_of_lt (Nat.zero_le m) h2
  have hi : i % d < d := Nat.mod_lt i hd
  have hm : m % d = m := Nat.mod_eq_of_lt h2
  rw [Nat.add_mod, hm]
  rcases Nat.lt_or_ge (i % d + m) d with hlt | hge
  · rw [Nat.mod_eq_of_lt hlt]
    omega
  · rw [Nat.mod_eq_sub_mod hge, Nat.mod_eq_of_lt (by omega)]
    omega

/-- The value written at frame `i` survives in the delay line for the next
`d - 1` frames. -/
theorem delayStateAt_line_persist (wet fb : ℝ) (lowpass : Bool) (d : ℕ) (input : List ℝ)
    (i : ℕ) : ∀ k, k < d →
      (delayStateAt wet fb lowpass d input (i + 1 + k)).line (i % d) =
        delayWritten wet fb lowpass d input i
  | 0, _ => by
      have h := (delayStateAt_wpos wet fb lowpass d input i).symm
      unfold delayWritten
      rw [h]
  | k + 1, hk => by
      rw [show i + 1 + (k + 1) = (i + 1 + k) + 1 from rfl,
        delayStateAt_line_succ_apply, delayStateAt_wpos,
        if_neg (fun hc => mod_add_ne i (1 + k) d (by omega) (by omega)
          (by rw [show i + (1 + k) = i + 1 + k by omega]; exact hc.symm))]
      exact delayStateAt_line_persist wet fb lowpass d input i k (by omega)

theorem delayReadPos_of_lt (d w : ℕ) (hw : w < d) : delayReadPos d w = w := by
  unfold delayReadPos
  have h1 : ((w : ℤ) - d) % (d : ℤ) = (w : ℤ) % (d : ℤ) := by
    conv_lhs => rw [show (w : ℤ) - d = w + -1 * d by ring]
    exact Int.add_mul_emod_self
  rw [h1, Int.emod_eq_of_lt (by exact_mod_cast Nat.zero_le w) (by exact_mod_cast hw)]
  exact Int.toNat_natCast w

theorem delaySamples_pos (delayMs sr : ℝ) : 1 ≤ delaySamples delayMs sr := by
  unfold delaySamples
  exact Nat.le_floor (by exact_mod_cast le_max_right (delayMs * sr / 1000) 1)

/-- The computed read position coincides with the write position. -/
theorem delayReadPos_wpos (wet fb : ℝ) (lowpass : Bool) (d : ℕ) (input : List ℝ)
    (hd : 1 ≤ d) (i : ℕ) :
    delayReadPos d (delayStateAt wet fb lowpass d input i).wpos =
      (delayStateAt wet fb lowpass d input i).wpos := by
  rw [delayStateAt_wpos]
  exact delayReadPos_of_lt d (i % d) (Nat.mod_lt i hd)

/-- The delayed sample of frame `i` is the value written `d` frames earlier,
or the initial silence for the first `d` frames. -/
theorem delayDelayed_eq (wet fb : ℝ) (lowpass : Bool) (d : ℕ) (input : List ℝ)
    (hd : 1 ≤ d) (i : ℕ) :
    delayDelayed wet fb lowpass d input i =
      if i < d then 0 else delayWritten wet fb lowpass d input (i - d) := by
  unfold delayDelayed
  rw [delayReadPos_wpos wet fb lowpass d input hd i, delayStateAt_wpos]
  rcases Nat.lt_or_ge i d with h | h
  · rw [if_pos h]
    exact delayStateAt_line_eq_zero wet fb lowpass d input i (i % d)
      (fun j hj => by
        rw [Nat.mod_eq_of_lt (Nat.lt_trans hj h), Nat.mod_eq_of_lt h]
        omega)
  · rw [if_neg (Nat.not_lt_of_ge h)]
    have h1 : i - d + 1 + (d - 1) = i := by omega
    have h2 : (i - d) % d = i % d := by
      conv_rhs => rw [show i = i - d + d by omega]
      exact (Nat.add_mod_right (i - d) d).symm
    have h3 := delayStateAt_line_persist wet fb lowpass d input (i - d) (d - 1) (by omega)
    rw [h1, h2] at h3
    exact h3

/-! ### Claims C8 and C10 -/

/-- C8: each frame writes `input[i] + feedback * feedbackSignal` into the delay
line at the current write position, where the feedback signal is the delayed
read sample when `lowpass = false` and the one-pole output
`0.5 * delayed + 0.5 * prevLp` when `lowpass = true`; `prevLp` starts at 0,
is updated to the lowpass output when `lowpass = true`, and is never updated
when `lowpass = false`. -/
theorem C8_feedback_write_and_lowpass (input : List ℝ)
    (sr wet delayMs decayTimeS : ℝ) (lowpass : Bool) (i : ℕ) :
    delayWritten wet (delayFeedback delayMs decayTimeS) lowpass (delaySamples delayMs sr)
        input i =
      input.getD i 0 + delayFeedback delayMs decayTimeS *
        (if lowpass then
          1 / 2 * delayDelayed wet (delayFeedback delayMs decayTimeS) lowpass
              (delaySamples delayMs sr) input i +
            1 / 2 * (delayStateAt wet (delayFeedback delayMs decayTimeS) lowpass
              (delaySamples delayMs sr) input i).prevLp
        else delayDelayed wet (delayFeedback delayMs decayTimeS) lowpass
          (delaySamples delayMs sr) input i) ∧
      (delayStateAt wet (delayFeedback delayMs decayTimeS) lowpass
          (delaySamples delayMs sr) input (i + 1)).prevLp =
        (if lowpass then
          1 / 2 * delayDelayed wet (delayFeedback delayMs decayTimeS) lowpass
              (delaySamples delayMs sr) input i +
            1 / 2 * (delayStateAt wet (delayFeedback delayMs decayTimeS) lowpass
              (delaySamples delayMs sr) input i).prevLp
        else (delayStateAt wet (delayFeedback delayMs decayTimeS) lowpass
          (delaySamples delayMs sr) input i).prevLp) ∧
      (delayStateAt wet (delayFeedback delayMs decayTimeS) lowpass
        (delaySamples delayMs sr) input 0).prevLp = 0 := by
  refine ⟨?_, ?_, rfl⟩
  · rw [delayWritten_eq]
    unfold delayFbSig lpCoeff
    norm_num
  · rw [show (delayStateAt wet (delayFeedback delayMs decayTimeS) lowpass
        (delaySamples delayMs sr) input (i + 1)).prevLp =
      (delayStep wet (delayFeedback delayMs decayTimeS) lowpass (delaySamples delayMs sr)
        (delayStateAt wet (delayFeedback delayMs decayTimeS) lowpass
          (delaySamples delayMs sr) input i) (input.getD i 0)).2.prevLp from rfl]
    rw [delayStep_prevLp]
    unfold lpCoeff delayDelayed
    norm_num

/-- C10: since the read offset equals the delay-line length, the Euclidean-mod
read position always equals the current write position, and the delayed sample
of frame `i` is exactly the value written at frame `i - delaySamples`, or 0
(initial silence) when `i < delaySamples`. -/
theorem C10_read_equals_write_exact_delay (input : List ℝ)
    (sr wet delayMs decayTimeS : ℝ) (lowpass : Bool) (i : ℕ) :
    delayReadPos (delaySamples delayMs sr)
        (delayStateAt wet (delayFeedback delayMs decayTimeS) lowpass
          (delaySamples delayMs sr) input i).wpos =
      (delayStateAt wet (delayFeedback delayMs decayTimeS) lowpass
        (delaySamples delayMs sr) input i).wpos ∧
      delayDelayed wet (delayFeedback delayMs decayTimeS) lowpass
          (delaySamples delayMs sr) input i =
        if i < delaySamples delayMs sr then 0
        else delayWritten wet (delayFeedback delayMs decayTimeS) lowpass
          (delaySamples delayMs sr) input (i - delaySamples delayMs sr) :=
  ⟨delayReadPos_wpos wet (delayFeedback delayMs decayTimeS) lowpass
      (delaySamples delayMs sr) input (delaySamples_pos delayMs sr) i,
    delayDelayed_eq wet (delayFeedback delayMs decayTimeS) lowpass
      (delaySamples delayMs sr) input (delaySamples_pos delayMs sr) i⟩

/-! ### Output bridge and the echo impulse response (C2) -/

/-- Folding the delay step over a prefix of the input. -/
noncomputable def delayFold (wet fb : ℝ) (lowpass : Bool) (d : ℕ) (s : DelaySt)
    (xs : List ℝ) : DelaySt :=
  xs.foldl (fun t x => (delayStep wet fb lowpass d t x).2) s

theorem delayRun_getD (wet fb : ℝ) (lowpass : Bool) (d : ℕ) :
    ∀ (xs : List ℝ) (s : DelaySt) (i : ℕ), i < xs.length →
      (delayRun wet fb lowpass d xs s).getD i 0 =
        (delayStep wet fb lowpass d (delayFold wet fb lowpass d s (xs.take i))
          (xs.getD i 0)).1
  | [], _, i, h => absurd h (by simp)
  | x :: t, s, 0, _ => by simp [delayRun, delayFold]
  | x :: t, s, i + 1, h => by
      have h' : i < t.length := Nat.lt_of_succ_lt_succ (by simpa using h)
      simp only [delayRun, List.getD_cons_succ, List.take_succ_cons]
      rw [delayRun_getD wet fb lowpass d t _ i h']
      rfl

theorem delayStateAt_eq_fold (wet fb : ℝ) (lowpass : Bool) (d : ℕ) (input : List ℝ) :
    ∀ i, i ≤ input.length →
      delayStateAt wet fb lowpass d input i =
        delayFold wet fb lowpass d delayInit (input.take i)
  | 0, _ => rfl
  | i + 1, h => by
      have h' : i < input.length := h
      rw [show delayStateAt wet fb lowpass d input (i + 1) =
          (delayStep wet fb lowpass d (delayStateAt wet fb lowpass d input i)
            (input.getD i 0)).2 from rfl,
        delayStateAt_eq_fold wet fb lowpass d input i (Nat.le_of_lt h'),
        List.take_succ, List.getElem?_eq_getElem h']
      unfold delayFold
      rw [List.foldl_append, List.getD_eq_getElem input 0 h']
      rfl

/-- The output sample at index `i` of `apply_delay_effect`. -/
theorem apply_delay_effect_getD (input : List ℝ) (sr wet delayMs decayTimeS : ℝ)
    (lowpass : Bool) (i : ℕ) (h : i < input.length) :
    (apply_delay_effect input sr wet delayMs decayTimeS lowpass).getD i 0 =
      (1 - wet) * input.getD i 0 +
        wet * delayDelayed wet (delayFeedback delayMs decayTimeS) lowpass
          (delaySamples delayMs sr) input i := by
  unfold apply_delay_effect
  rw [delayRun_getD wet (delayFeedback delayMs decayTimeS) lowpass (delaySamples delayMs sr)
      input delayInit i h,
    ← delayStateAt_eq_fold wet (delayFeedback delayMs decayTimeS) lowpass
      (delaySamples delayMs sr) input i (Nat.le_of_lt h)]
  rfl

theorem delaySamples_echo : delaySamples 250 16000 = 4000 := by
  unfold delaySamples
  rw [show (250 : ℝ) * 16000 / 1000 = ((4000 : ℕ) : ℝ) by norm_num,
    max_eq_left (by exact_mod_cast Nat.one_le_iff_ne_zero.mpr (by norm_num)),
    Nat.floor_natCast]

/-- An impulse: 1 at index `k`, 0 elsewhere, total length `n`. -/
noncomputable def impulseInput (k n : ℕ) : List ℝ :=
  List.ofFn fun j : Fin n => if (j : ℕ) = k then 1 else 0

theorem impulseInput_length (k n : ℕ) : (impulseInput k n).length = n := by
  simp [impulseInput]

theorem impulseInput_getD (k n i : ℕ) (h : i < n) :
    (impulseInput k n).getD i 0 = if i = k then 1 else 0 := by
  unfold impulseInput
  rw [List.getD_eq_getElem _ 0 (by simpa using h)]
  simp

/-- With `lowpass = false` the delayed sample satisfies the pure echo
recurrence. -/
theorem delayDelayed_false_rec (wet fb : ℝ) (d : ℕ) (input : List ℝ) (hd : 1 ≤ d)
    (i : ℕ) :
    delayDelayed wet fb false d input i =
      if i < d then 0
      else input.getD (i - d) 0 + fb * delayDelayed wet fb false d input (i - d) := by
  rw [delayDelayed_eq wet fb false d input hd i]
  rcases Nat.lt_or_ge i d with h | h
  · rw [if_pos h, if_pos h]
  · rw [if_neg (Nat.not_lt_of_ge h), if_neg (Nat.not_lt_of_ge h), delayWritten_eq]
    unfold delayFbSig
    rw [if_neg (by simp)]

theorem delayDelayed_impulse_zero (wet fb : ℝ) (k n : ℕ) (hk : k < n) :
    ∀ i, i ≤ k → delayDelayed wet fb false 4000 (impulseInput k n) i = 0 := by
  intro i
  induction i using Nat.strong_induction_on with
  | _ i ih =>
    intro hik
    rw [delayDelayed_false_rec wet fb 4000 _ (by norm_num) i]
    rcases Nat.lt_or_ge i 4000 with h | h
    · rw [if_pos h]
    · rw [if_neg (Nat.not_lt_of_ge h),
        impulseInput_getD k n _ (by omega), if_neg (by omega),
        ih (i - 4000) (by omega) (by omega)]
      ring

/-- C2: feeding an impulse at index `k` through the delay engine with
`wet = 0.5`, `delayMs = 250`, `sampleRate = 16000`, `decayTimeS = 1`,
`lowpass = false`: the output at index `k` is `0.5` and the output at index
`k + 4000` is `0.5` within tolerance `0.001`. -/
theorem C2_echo_impulse_response (k n : ℕ) (h : k + 4000 < n) :
    (apply_delay_effect (impulseInput k n) 16000 (1 / 2) 250 1 false).getD k 0 = 1 / 2 ∧
      |(apply_delay_effect (impulseInput k n) 16000 (1 / 2) 250 1 false).getD (k + 4000) 0
          - 1 / 2| ≤ 1 / 1000 := by
  have hk : k < n := by omega
  have hzero : ∀ i, i ≤ k →
      delayDelayed (1 / 2) (delayFeedback 250 1) false 4000 (impulseInput k n) i = 0 :=
    delayDelayed_impulse_zero (1 / 2) (delayFeedback 250 1) k n hk
  have hdk : delayDelayed (1 / 2) (delayFeedback 250 1) false (delaySamples 250 16000)
      (impulseInput k n) k = 0 := by
    rw [delaySamples_echo]
    exact hzero k le_rfl
  have hdk4 : delayDelayed (1 / 2) (delayFeedback 250 1) false (delaySamples 250 16000)
      (impulseInput k n) (k + 4000) = 1 := by
    rw [delaySamples_echo, delayDelayed_false_rec (1 / 2) (delayFeedback 250 1) 4000 _
        (by norm_num) (k + 4000),
      if_neg (by omega), show k + 4000 - 4000 = k by omega,
      impulseInput_getD k n k hk, if_pos rfl, hzero k le_rfl]
    ring
  constructor
  · rw [apply_delay_effect_getD (impulseInput k n) 16000 (1 / 2) 250 1 false k
        (by rw [impulseInput_length]; omega),
      hdk, impulseInput_getD k n k hk, if_pos rfl]
    norm_num
  · rw [apply_delay_effect_getD (impulseInput k n) 16000 (1 / 2) 250 1 false (k + 4000)
        (by rw [impulseInput_length]; omega),
      hdk4, impulseInput_getD k n (k + 4000) (by omega), if_neg (by omega)]
    norm_num

/-- Witness for C2 with the impulse at index 0 in a buffer of 4001 samples. -/
theorem C2_echo_impulse_response_witness :
    0 + 4000 < 4001 ∧
      ((apply_delay_effect (impulseInput 0 4001) 16000 (1 / 2) 250 1 false).getD 0 0 =
          1 / 2 ∧
        |(apply_delay_effect (impulseInput 0 4001) 16000 (1 / 2) 250 1 false).getD
            (0 + 4000) 0 - 1 / 2| ≤ 1 / 1000) :=
  ⟨by norm_num, C2_echo_impulse_response 0 4001 (by norm_num)⟩

end WavEcho
